import Mathlib

/-!
Shallow embedding of the notify-mangas scripts
(`unified_manga_scraper.py`, `notify_discord.py`, `fix_yaml.py`)
and proofs about the claims of the specification.

Chapter numbers are embedded as exact rationals (`ℚ`): every value the
scripts manipulate is parsed from a decimal token, and all the properties
at stake are order/equality comparisons on those decimal values.
-/

namespace NotifyMangas

/- ### Reconciliation step of `unified_manga_scraper.main`

`main` iterates over the series list; per series it calls
`get_latest_chapter` (which can raise — fetch failure — or return `None` —
extraction failure — or a float), coerces the stored `last_chapter` and
decides:

    if (last_f is None) or (latest > last_f):
        s["last_chapter"] = latest        # plus print + Discord notify
        something_new = True

At the end:

    if something_new: save_library(lib)

`FetchR` is the observable result of `get_latest_chapter` for one series;
`step` is one iteration's effect on that series' stored `last_chapter`,
tagged with the reconciliation outcome (`updated` ↦ the `[NUEVO]`
print/notify/mutation branch, `unchanged` ↦ no action, the two failure
tags ↦ the `[WARN]` / `Error:` paths that `continue`). -/

/-- Result of `get_latest_chapter` for one series: the call raised
(`RuntimeError` out of `fetch_html`), returned `None`, or returned a
chapter number. -/
inductive FetchR where
  | raised
  | noCandidate
  | found (c : ℚ)
deriving DecidableEq

/-- Reconciliation outcome for one series in one run. -/
inductive Outcome where
  | updated (old : Option ℚ) (nw : ℚ)
  | unchanged
  | fetchFailed
  | extractionFailed
deriving DecidableEq

/-- One iteration of the `main` loop on one series: given the fetch/extract
result and the stored `last_chapter`, return the outcome and the new stored
value.  Mirrors lines 353-380 of `unified_manga_scraper.py`. -/
def step : FetchR → Option ℚ → Outcome × Option ℚ
  | .raised, last => (.fetchFailed, last)
  | .noCandidate, last => (.extractionFailed, last)
  | .found c, last =>
    match last with
    | none => (.updated none c, some c)
    | some n => if n < c then (.updated (some n) c, some c) else (.unchanged, some n)

/-- `true` exactly on the branch that sets `something_new = True`. -/
def isUpd : Outcome → Bool
  | .updated _ _ => true
  | _ => false

/-- The whole `main` loop over the series list: per-series outcomes and new
stored values, plus the final `something_new` flag. -/
def runLoop : List (FetchR × Option ℚ) → List (Outcome × Option ℚ) × Bool
  | [] => ([], false)
  | (f, l) :: rest =>
    let r := step f l
    let rr := runLoop rest
    (r :: rr.1, isUpd r.1 || rr.2)

/-- Number of `save_library` calls performed at the end of `main`
(lines 382-386: save exactly when `something_new`). -/
def saveCount (inputs : List (FetchR × Option ℚ)) : ℕ :=
  if (runLoop inputs).2 then 1 else 0

/- ### Python string primitives used by `normalize_chapter`

`normalize_chapter` works on `text.lower().strip()` and applies, in order,
the three regexes of `CAP_PATTERNS` and then a bare-number fallback:

    CAP_PATTERNS = [
        r"cap[ií]tulo\s*([0-9]+(?:[.,-][0-9]+)?)",
        r"chapter\s*([0-9]+(?:[.,-][0-9]+)?)",
        r"\bch\s*([0-9]+(?:[.,-][0-9]+)?)\b",
    ]
    ...fallback...  r"([0-9]+(?:[.,][0-9]+)?)"

The captured group has `,` and `-` replaced by `.` and is parsed with
`float` (which cannot fail on `digits(sep digits)?`, so the `except`
branches are dead).  The regexes below are embedded directly as leftmost-
match scanners over `List Char`; `str.lower` is embedded for ASCII plus the
accented letters that occur in the patterns and site texts. -/

/-- `str.lower`, for ASCII letters and the Spanish accented letters the
sites use. -/
def pyLower (c : Char) : Char :=
  if 'A' ≤ c ∧ c ≤ 'Z' then Char.ofNat (c.toNat + 32)
  else if c = 'Á' then 'á'
  else if c = 'É' then 'é'
  else if c = 'Í' then 'í'
  else if c = 'Ó' then 'ó'
  else if c = 'Ú' then 'ú'
  else if c = 'Ñ' then 'ñ'
  else if c = 'Ü' then 'ü'
  else c

/-- Python `\s` / `str.strip` whitespace (ASCII part). -/
def isPySpace (c : Char) : Bool :=
  c = ' ' ∨ c = '\t' ∨ c = '\n' ∨ c = '\r' ∨ c = '\x0b' ∨ c = '\x0c'

/-- Python regex word character (`\w`), over the alphabet in play: ASCII
letters, digits, underscore, and the accented letters above. -/
def pyWord (c : Char) : Bool :=
  ('a' ≤ c ∧ c ≤ 'z') ∨ ('A' ≤ c ∧ c ≤ 'Z') ∨ ('0' ≤ c ∧ c ≤ '9') ∨ c = '_'
  ∨ c = 'á' ∨ c = 'é' ∨ c = 'í' ∨ c = 'ó' ∨ c = 'ú' ∨ c = 'ñ' ∨ c = 'ü'
  ∨ c = 'Á' ∨ c = 'É' ∨ c = 'Í' ∨ c = 'Ó' ∨ c = 'Ú' ∨ c = 'Ñ' ∨ c = 'Ü'

/-- `str.strip()` on a character list. -/
def pyStrip (l : List Char) : List Char :=
  ((l.dropWhile isPySpace).reverse.dropWhile isPySpace).reverse

/-- Numeric value of a digit string (fold as positional decimal). -/
def natOfDigits (l : List Char) : ℕ :=
  l.foldl (fun a c => 10 * a + (c.toNat - 48)) 0

/-- Value of `float("ds.fs")` — the decimal the scraper gets after replacing
the `,`/`-` separator of a captured group by `.`: the rational
`ds + fs / 10 ^ |fs|`, written over the common denominator `10 ^ |fs|`. -/
def decVal (ds fs : List Char) : ℚ :=
  Rat.divInt (Int.ofNat (natOfDigits ds * 10 ^ fs.length + natOfDigits fs))
    (Int.ofNat (10 ^ fs.length))

/-- Maximal leading digit run and the remainder (greedy `[0-9]+`). -/
def spanDigits : List Char → List Char × List Char
  | [] => ([], [])
  | c :: cs =>
    if c.isDigit then
      let p := spanDigits cs
      (c :: p.1, p.2)
    else ([], c :: cs)

/-- Match a literal at the head of the input, returning the remainder. -/
def matchLit : List Char → List Char → Option (List Char)
  | [], s => some s
  | _, [] => none
  | c :: cs, d :: ds => if c = d then matchLit cs ds else none

/-- Greedy `\s*`. -/
def skipWs : List Char → List Char
  | [] => []
  | c :: cs => if isPySpace c then skipWs cs else c :: cs

/-- Value of the group `([0-9]+(?:[sep][0-9]+)?)` matched greedily at the
head of the input, after the `,`/`-`→`.` replacement and `float`;
`none` when no digit is at the head. -/
def numAfter (seps : List Char) (l : List Char) : Option ℚ :=
  match spanDigits l with
  | ([], _) => none
  | (ds, rest) =>
    match rest with
    | [] => some (natOfDigits ds : ℚ)
    | c :: rest2 =>
      if c ∈ seps then
        let p := spanDigits rest2
        if p.1.isEmpty then some (natOfDigits ds : ℚ) else some (decVal ds p.1)
      else some (natOfDigits ds : ℚ)

/-- `\b` at the start of the remainder: end of input or a non-word char. -/
def boundaryOk : List Char → Bool
  | [] => true
  | c :: _ => !pyWord c

/-- Like `numAfter` but for the third pattern, whose group is followed by
`\b`: when the greedy match (with fractional part) is followed by a word
character the engine backtracks to the integer part alone, which is then
followed by the separator — a non-word char — so the boundary holds; a bare
integer part followed by a word character makes the whole position fail. -/
def numAfterB (l : List Char) : Option ℚ :=
  match spanDigits l with
  | ([], _) => none
  | (ds, rest) =>
    match rest with
    | [] => some (natOfDigits ds : ℚ)
    | c :: rest2 =>
      if c = '.' ∨ c = ',' ∨ c = '-' then
        let p := spanDigits rest2
        if p.1.isEmpty then some (natOfDigits ds : ℚ)
        else if boundaryOk p.2 then some (decVal ds p.1)
        else some (natOfDigits ds : ℚ)
      else if pyWord c then none
      else some (natOfDigits ds : ℚ)

/-- The ten digit characters matched by `[0-9]`. -/
def digitChars : List Char := ['0','1','2','3','4','5','6','7','8','9']

/-- The two spellings matched by `cap[ií]tulo` (first CAP pattern). -/
def capLits : List (List Char) :=
  [['c','a','p','i','t','u','l','o'], ['c','a','p','í','t','u','l','o']]

/-- The literal of the second CAP pattern, `chapter`. -/
def chapLits : List (List Char) :=
  [['c','h','a','p','t','e','r']]

/-- Leftmost match of `lit\s*([0-9]+(?:[.,-][0-9]+)?)` for one of the given
literals (the alternation `cap[ií]tulo` is the two spellings). -/
def searchMarkerNum (lits : List (List Char)) : List Char → Option ℚ
  | [] => none
  | c :: cs =>
    match (lits.filterMap (fun lit => matchLit lit (c :: cs))).head? with
    | some rest =>
      match numAfter ['.', ',', '-'] (skipWs rest) with
      | some q => some q
      | none => searchMarkerNum lits cs
    | none => searchMarkerNum lits cs

/-- Leftmost match of `\bch\s*([0-9]+(?:[.,-][0-9]+)?)\b`; `prev` is the
character before the current position (for the leading `\b`). -/
def searchChNum (prev : Option Char) : List Char → Option ℚ
  | [] => none
  | c :: cs =>
    let okB := match prev with
      | none => true
      | some p => !pyWord p
    match (if okB then matchLit ['c', 'h'] (c :: cs) else none) with
    | some rest =>
      match numAfterB (skipWs rest) with
      | some q => some q
      | none => searchChNum (some c) cs
    | none => searchChNum (some c) cs

/-- Leftmost match of the bare-number fallback `([0-9]+(?:[.,][0-9]+)?)`. -/
def searchAnyNum : List Char → Option ℚ
  | [] => none
  | c :: cs => if c.isDigit then numAfter ['.', ','] (c :: cs) else searchAnyNum cs

/-- `normalize_chapter` (unified_manga_scraper.py lines 158-181): lowercase
and strip, try the three `CAP_PATTERNS` in order, then the bare-number
fallback; `None` when nothing numeric is found. -/
def normalize_chapter (text : String) : Option ℚ :=
  if text = "" then none
  else
    let t := pyStrip (text.data.map pyLower)
    match searchMarkerNum capLits t with
    | some q => some q
    | none =>
      match searchMarkerNum chapLits t with
      | some q => some q
      | none =>
        match searchChNum none t with
        | some q => some q
        | none => searchAnyNum t

/- ### Site parsers (unified_manga_scraper.py lines 188-244)

BeautifulSoup selection cannot be embedded; each parser is embedded over
the lists of text fragments its CSS selections produce (one list per
selection stage), which is exactly the data the parser hands to
`normalize_chapter`.  The `" ".join(txt.split())` whitespace collapsing the
parsers apply before `normalize_chapter` is embedded as `wsCollapse`. -/

/-- `str.split()` (split on whitespace runs, no empty tokens). -/
def wsTokens : List Char → List Char → List (List Char)
  | cur, [] => if cur.isEmpty then [] else [cur.reverse]
  | cur, c :: cs =>
    if isPySpace c then
      if cur.isEmpty then wsTokens [] cs else cur.reverse :: wsTokens [] cs
    else wsTokens (c :: cur) cs

/-- `sep.join(parts)`. -/
def pyJoin (sep : String) : List String → String
  | [] => ""
  | [x] => x
  | x :: y :: rest => x ++ sep ++ pyJoin sep (y :: rest)

/-- `" ".join(s.split())`. -/
def wsCollapse (s : String) : String :=
  pyJoin " " ((wsTokens [] s.data).map (fun l => String.mk l))

/-- Candidates of the single Madara stage (`li.wp-manga-chapter a` texts). -/
def madaraCands (texts : List String) : List ℚ :=
  (texts.map wsCollapse).filterMap normalize_chapter

/-- `parse_madara_latest`: `max(caps) if caps else None`. -/
def parse_madara_latest (texts : List String) : Option ℚ :=
  (madaraCands texts).max?

/-- Python `needle in haystack` on strings (substring containment). -/
def containsTok (needle : List Char) : List Char → Bool
  | [] => needle.isEmpty
  | c :: cs => (matchLit needle (c :: cs)).isSome || containsTok needle cs

/-- Zonatmo fallback filter: `"Cap" in t or "cap" in t`. -/
def zonHasCap (t : String) : Bool :=
  containsTok "Cap".data t.data || containsTok "cap".data t.data

/-- Candidates of the narrow Zonatmo stage (`h4 a.btn-collapse` texts). -/
def zonCands1 (h4s : List String) : List ℚ :=
  (h4s.map wsCollapse).filterMap normalize_chapter

/-- Candidates of the broad Zonatmo stage (all anchor texts containing a
`Cap`/`cap` token). -/
def zonCands2 (anchors : List String) : List ℚ :=
  (anchors.filter zonHasCap).filterMap normalize_chapter

/-- The candidate list `parse_zonatmo_latest` takes its maximum over: the
broad stage runs only when the narrow stage produced nothing
(`if not caps:` in the source). -/
def zonStaged (h4s anchors : List String) : List ℚ :=
  if (zonCands1 h4s).isEmpty then zonCands2 anchors else zonCands1 h4s

/-- `parse_zonatmo_latest`. -/
def parse_zonatmo_latest (h4s anchors : List String) : Option ℚ :=
  (zonStaged h4s anchors).max?

/-- Candidates of the narrow AnimeBBG stage (`.structItem-title` texts). -/
def abCands1 (titles : List String) : List ℚ :=
  (titles.map wsCollapse).filterMap normalize_chapter

/-- Candidates of the broad AnimeBBG stage (all anchor texts, no token
filter). -/
def abCands2 (anchors : List String) : List ℚ :=
  anchors.filterMap normalize_chapter

/-- Staging of `parse_animebbg_latest` (broad stage only if narrow empty). -/
def abStaged (titles anchors : List String) : List ℚ :=
  if (abCands1 titles).isEmpty then abCands2 anchors else abCands1 titles

/-- `parse_animebbg_latest`. -/
def parse_animebbg_latest (titles anchors : List String) : Option ℚ :=
  (abStaged titles anchors).max?

/-- The "maximum surviving candidate" contract: the result is `none` exactly
when the candidate list is empty, and any returned value is a member of the
list that bounds every member. -/
def MaxSpec (cs : List ℚ) (r : Option ℚ) : Prop :=
  (r = none ↔ cs = []) ∧ ∀ q, r = some q → q ∈ cs ∧ ∀ x ∈ cs, x ≤ q

/- ### `fetch_html` (unified_manga_scraper.py lines 105-145)

The network is abstracted as the stream `gets i` of results of the
successive `sess.get` calls (whether issued by the requests session or the
cloudscraper one — both feed the same status test).  One loop iteration
issues one GET, plus a second one when a 403/503 answer triggers the
cloudscraper escalation (`use_cloud` then stays on).  A `RuntimeError` is
embedded as `Except.error` carrying the last status code (`none` = the
`"sin respuesta"` case). -/

/-- Result of one `sess.get`: an HTTP response or a raised
`requests.RequestException`. -/
inductive GetR where
  | resp (code : ℕ) (body : String)
  | exn
deriving DecidableEq

/-- The retry loop of `fetch_html`.  `t` is the remaining attempt count,
`i` the index of the next GET in the stream, `uc` the `use_cloud` flag,
`last` the status of the last response seen (`r` in the source). -/
def fetchLoop (cloudAvail : Bool) (gets : ℕ → GetR) :
    ℕ → ℕ → Bool → Option ℕ → Except (Option ℕ) (ℕ × String)
  | 0, _, _, last => .error last
  | t + 1, i, uc, last =>
    match gets i with
    | .exn => fetchLoop cloudAvail gets t (i + 1) uc last
    | .resp c b =>
      if c = 200 ∨ c = 201 then .ok (c, b)
      else if (c = 403 ∨ c = 503) ∧ !uc ∧ cloudAvail then
        match gets (i + 1) with
        | .exn => fetchLoop cloudAvail gets t (i + 2) true (some c)
        | .resp c2 b2 =>
          if c2 = 200 ∨ c2 = 201 then .ok (c2, b2)
          else fetchLoop cloudAvail gets t (i + 2) true (some c2)
      else fetchLoop cloudAvail gets t (i + 1) uc (some c)

/-- `fetch_html` with `max_tries` attempts: `Except.ok (status, html)` or
the `RuntimeError` (`Except.error last_status`). -/
def fetch_html (cloudAvail useCloud0 : Bool) (gets : ℕ → GetR)
    (max_tries : ℕ) : Except (Option ℕ) (ℕ × String) :=
  fetchLoop cloudAvail gets max_tries 0 useCloud0 none

/- ### `notify_discord._chunks` (notify_discord.py lines 12-26) -/

/-- Python line-break characters (`str.splitlines`), ASCII part. -/
def isLineBreak (c : Char) : Bool :=
  c = '\n' ∨ c = '\r' ∨ c = '\x0b' ∨ c = '\x0c' ∨ c = '\x1c' ∨ c = '\x1d'
  ∨ c = '\x1e'

/-- Worker for `str.splitlines`: `\r\n` counts as a single break; a
trailing line without a final break is kept; the empty string gives `[]`. -/
def slGo : List Char → List Char → List (List Char)
  | acc, [] => if acc.isEmpty then [] else [acc.reverse]
  | acc, '\r' :: '\n' :: rest => acc.reverse :: slGo [] rest
  | acc, c :: rest =>
    if isLineBreak c then acc.reverse :: slGo [] rest else slGo (c :: acc) rest

/-- `str.splitlines()`. -/
def splitlines (s : String) : List String :=
  (slGo [] s.data).map (fun l => String.mk l)

/-- Sum of `len(line) + 1` over a pending chunk — the `total` counter of
`_chunks`. -/
def sumLens (cur : List String) : ℕ :=
  (cur.map (fun l => l.length + 1)).sum

/-- The accumulation loop of `_chunks` over the lines: `out` are the
finished chunks, `cur`/`total` the pending chunk and its running size. -/
def chunksGo (n : ℕ) : List String → List String → ℕ → List String → List String
  | [], out, _, cur =>
    if cur.isEmpty then out else out ++ [pyJoin "\n" cur]
  | line :: rest, out, total, cur =>
    if n < total + (line.length + 1) ∧ !cur.isEmpty then
      chunksGo n rest (out ++ [pyJoin "\n" cur]) (line.length + 1) [line]
    else chunksGo n rest out (total + (line.length + 1)) (cur ++ [line])

/-- `_chunks(s, n)` (notify_discord.py lines 12-26). -/
def _chunks (s : String) (n : ℕ) : List String :=
  if s.length ≤ n then [s] else chunksGo n (splitlines s) [] 0 []

/- ### `fix_yaml.py`: `plausible_chapter` and the cleaning loop

YAML scalars that can sit in `last_chapter` are embedded as `PyVal`; the
Python `float` builtin as `pyFloat` (`none` = the conversion raises, which
the `try/except` turns into the respective fallback).  Floats are embedded
as exact decimals plus the three non-finite values that `math.isnan` /
`math.isinf` test for. -/

/-- A Python float: a finite (exact) value, or `nan`/`inf`/`-inf`. -/
inductive PFloat where
  | fin (q : ℚ)
  | nan
  | inf
  | ninf
deriving DecidableEq

/-- A YAML scalar as found in `last_chapter`. -/
inductive PyVal where
  | vnone
  | vint (i : ℤ)
  | vfloat (f : PFloat)
  | vstr (s : String)
deriving DecidableEq

/-- Parse the exponent tail `[+-]?digits` of a float literal. -/
def parseExpTail (l : List Char) : Option ℤ :=
  let p : ℤ × List Char :=
    match l with
    | '+' :: r => (1, r)
    | '-' :: r => (-1, r)
    | r => (1, r)
  match spanDigits p.2 with
  | ([], _) => none
  | (ds, rest) => if rest.isEmpty then some (p.1 * natOfDigits ds) else none

/-- Value of `sgn * (ipart.fpart) * 10^e` as an exact rational. -/
def floatVal (sgn : ℤ) (ipart fpart : List Char) (e : ℤ) : ℚ :=
  let mantNum : ℤ := Int.ofNat (natOfDigits ipart * 10 ^ fpart.length + natOfDigits fpart)
  let mantDen : ℤ := Int.ofNat (10 ^ fpart.length)
  if 0 ≤ e then Rat.divInt (sgn * mantNum * 10 ^ e.toNat) mantDen
  else Rat.divInt (sgn * mantNum) (mantDen * 10 ^ (-e).toNat)

/-- Mantissa-and-exponent part of `float(str)` after sign and `inf`/`nan`
have been handled: `digits [. digits] [e exp]` or `. digits [e exp]`. -/
def parseMantissa (sgn : ℤ) (l : List Char) : Option PFloat :=
  match spanDigits l with
  | (ds, rest) =>
    match rest with
    | [] => if ds.isEmpty then none else some (.fin (floatVal sgn ds [] 0))
    | '.' :: r2 =>
      match spanDigits r2 with
      | (fs, r3) =>
        if ds.isEmpty ∧ fs.isEmpty then none
        else
          match r3 with
          | [] => some (.fin (floatVal sgn ds fs 0))
          | 'e' :: r4 =>
            match parseExpTail r4 with
            | some e => some (.fin (floatVal sgn ds fs e))
            | none => none
          | _ => none
    | 'e' :: r2 =>
      if ds.isEmpty then none
      else
        match parseExpTail r2 with
        | some e => some (.fin (floatVal sgn ds [] e))
        | none => none
    | _ => none

/-- `float(str)`: strip, case-fold, optional sign, then `inf`/`infinity`/
`nan` or a decimal literal; `none` when the conversion raises
`ValueError`.  (Digit-group underscores are not modelled.) -/
def parseFloatStr (s : String) : Option PFloat :=
  let t := (pyStrip s.data).map pyLower
  let p : ℤ × List Char :=
    match t with
    | '+' :: r => (1, r)
    | '-' :: r => (-1, r)
    | r => (1, r)
  if p.2 = "inf".data ∨ p.2 = "infinity".data then
    some (if p.1 = 1 then .inf else .ninf)
  else if p.2 = "nan".data then some .nan
  else parseMantissa p.1 p.2

/-- The `float` builtin on a YAML scalar; `none` when it raises (`None` is
a `TypeError`, a bad string a `ValueError`). -/
def pyFloat : PyVal → Option PFloat
  | .vnone => none
  | .vint i => some (.fin i)
  | .vfloat f => some f
  | .vstr s => parseFloatStr s

/-- `plausible_chapter` (fix_yaml.py lines 24-42): convertible, finite, not
in the year band [1900, 2100], not above 3000, strictly positive. -/
def plausible_chapter (x : PyVal) : Bool :=
  match pyFloat x with
  | none => false
  | some .nan => false
  | some .inf => false
  | some .ninf => false
  | some (.fin v) =>
    if 1900 ≤ v ∧ v ≤ 2100 then false
    else if 3000 < v then false
    else if v ≤ 0 then false
    else true

/-- Python `round(v)` — round half to even — computed on the exact value. -/
def roundHalfEven (v : ℚ) : ℤ :=
  let f := Rat.floor v
  let fracNum := v.num - f * (v.den : ℤ)
  if 2 * fracNum < (v.den : ℤ) then f
  else if (v.den : ℤ) < 2 * fracNum then f + 1
  else if f % 2 = 0 then f else f + 1

/-- Python `round(v, 1)` on the exact value. -/
def roundTo1 (v : ℚ) : ℚ :=
  Rat.divInt (roundHalfEven (Rat.divInt (v.num * 10) (v.den : ℤ))) 10

/-- Python `==` between the YAML scalars in play (numeric values compare
across `int`/`float`; `inf == inf` holds, `nan == nan` does not; values of
unrelated kinds are unequal). -/
def pyEq : PyVal → PyVal → Bool
  | .vnone, .vnone => true
  | .vint a, .vint b => a = b
  | .vint a, .vfloat (.fin q) => q.den = 1 ∧ q.num = a
  | .vfloat (.fin q), .vint b => q.den = 1 ∧ q.num = b
  | .vfloat (.fin a), .vfloat (.fin b) => a = b
  | .vfloat .inf, .vfloat .inf => true
  | .vfloat .ninf, .vfloat .ninf => true
  | .vstr a, .vstr b => a = b
  | _, _ => false

/-- What the cleaning loop of `fix_yaml.main` (lines 62-88) does to one
`last_chapter` value. -/
inductive CleanAction where
  | skipped
  | kept
  | setNoneNoNum
  | setNoneInvalid
  | normalized (v : PyVal)
  | crashes
deriving DecidableEq

/-- One iteration of the cleaning loop on `lc = s.get("last_chapter")`:
skip `None`/`""`; if implausible, clear with reason `inválido`; otherwise
re-convert (a failure would clear with reason `no-numérico`) and normalize
the decimal representation.  `crashes` stands for the uncaught exception
`round` would raise on a non-finite float — that arm requires
`plausible_chapter` to have accepted a non-finite value. -/
def clean_entry (lc : PyVal) : CleanAction :=
  if lc = .vnone ∨ lc = .vstr "" then .skipped
  else if plausible_chapter lc then
    match pyFloat lc with
    | none => .setNoneNoNum
    | some (.fin v) =>
      let r := roundHalfEven v
      let v2 : PyVal :=
        if (1000000000 : ℤ) * |v.num - r * (v.den : ℤ)| > (v.den : ℤ) then
          .vfloat (.fin (roundTo1 v))
        else .vint r
      if pyEq v2 lc then .kept else .normalized v2
    | some _ => .crashes
  else .setNoneInvalid

/- ### Theorems for C2, C4, C5 -/

/-- C2: with a stored numeric `last_chapter = N` and an extracted candidate
`c`, the outcome is `Updated` exactly when `c > N` (strict), otherwise
`Unchanged`; the stored value becomes `max N c`, hence it never
decreases and equality is never an update. -/
theorem reconcile_strict_monotone (n c : ℚ) :
    step (.found c) (some n)
      = (if n < c then Outcome.updated (some n) c else Outcome.unchanged,
         some (max n c))
    ∧ ((step (.found c) (some n)).1 = Outcome.updated (some n) c ↔ n < c) := by
  rcases lt_or_le n c with h | h
  · simp [step, h, max_eq_right h.le]
  · simp [step, not_lt.2 h, max_eq_left h]

/-- C5: with no stored `last_chapter` (bootstrap), any successful extraction
`c` — whatever its magnitude — yields `Updated{old: none, new: c}` and sets
the stored value to `c`. -/
theorem bootstrap_always_updates (c : ℚ) :
    step (.found c) none = (.updated none c, some c) := rfl

/-- C4: a fetch failure or an extraction failure leaves the stored
`last_chapter` exactly as it was, and the rest of the series list is still
processed identically. -/
theorem failure_preserves_state (l : Option ℚ) (inputs : List (FetchR × Option ℚ)) :
    step .raised l = (.fetchFailed, l)
    ∧ step .noCandidate l = (.extractionFailed, l)
    ∧ (runLoop ((.raised, l) :: inputs)).1
        = (Outcome.fetchFailed, l) :: (runLoop inputs).1
    ∧ (runLoop ((.noCandidate, l) :: inputs)).1
        = (Outcome.extractionFailed, l) :: (runLoop inputs).1 := by
  refine ⟨rfl, rfl, ?_, ?_⟩ <;> simp [runLoop, step]

/- ### Theorems for C3 -/

/-- C3 counterexample: a run whose single series is unchanged (candidate
equal to the stored value) performs no save at all, so the library is NOT
re-serialized once per run regardless of changes. -/
theorem save_not_unconditional :
    ¬ saveCount [(.found 5, some 5)] = 1 := by decide

lemma runLoop_flag_iff (inputs : List (FetchR × Option ℚ)) :
    (runLoop inputs).2 = true ↔ ∃ p ∈ (runLoop inputs).1, isUpd p.1 = true := by
  induction inputs with
  | nil => simp [runLoop]
  | cons hd tl ih =>
    obtain ⟨f, l⟩ := hd
    simp [runLoop, Bool.or_eq_true, ih]

/-- C3 amended: the library is serialized at most once per run, and exactly
once iff at least one series produced an `Updated` outcome; a run with no
update performs no save. -/
theorem save_iff_some_update (inputs : List (FetchR × Option ℚ)) :
    saveCount inputs ≤ 1
    ∧ (saveCount inputs = 1 ↔ ∃ p ∈ (runLoop inputs).1, isUpd p.1 = true) := by
  unfold saveCount
  refine ⟨by split <;> simp, ?_⟩
  rw [← runLoop_flag_iff]
  split <;> rename_i h <;> simp [h]

/- ### Theorems for C1 -/

/-- C1 counterexample: `normalize_chapter` applies no noise filtering — a
fragment whose only numeric token is the calendar year 1999 yields that
year as a chapter candidate. -/
theorem extractor_returns_year :
    normalize_chapter "1999" = some 1999
    ∧ 1900 ≤ (1999 : ℚ) ∧ (1999 : ℚ) ≤ 2100 := by
  refine ⟨by decide, by norm_num, by norm_num⟩

/-- C1 amended: the extractor itself does not filter; the stated invariant
is enforced by the state cleaner instead — `plausible_chapter` accepts a
value exactly when `float` converts it to a finite number `v` with
`0 < v`, `v ∉ [1900, 2100]` and `v ≤ 3000`. -/
theorem plausible_chapter_characterization (x : PyVal) :
    plausible_chapter x = true
      ↔ ∃ v : ℚ, pyFloat x = some (.fin v)
          ∧ 0 < v ∧ ¬(1900 ≤ v ∧ v ≤ 2100) ∧ v ≤ 3000 := by
  unfold plausible_chapter
  cases hf : pyFloat x with
  | none => simp
  | some f =>
    cases f with
    | fin v =>
      simp only [Option.some.injEq, PFloat.fin.injEq]
      constructor
      · intro h
        split_ifs at h with h1 h2 h3
        exact ⟨v, rfl, not_le.1 h3, h1, not_lt.1 h2⟩
      · rintro ⟨w, hw, hpos, hband, hceil⟩
        subst hw
        rw [if_neg hband, if_neg (not_lt.2 hceil), if_neg (not_le.2 hpos)]
    | nan => simp
    | inf => simp
    | ninf => simp

/- ### Theorems for C6 -/

/-- C6 counterexample: `_` is not a recognized fractional separator —
"166_5" extracts 166, not 166.5 (the fallback pattern only knows `.` and
`,`, and the marker patterns only `.`, `,`, `-`). -/
theorem underscore_not_separator :
    normalize_chapter "166_5" = some 166
    ∧ ¬ normalize_chapter "166_5" = some (1665 / 10) := by
  have h : (1665 / 10 : ℚ) = Rat.divInt 1665 10 := by
    rw [Rat.divInt_eq_div]; norm_num
  exact ⟨by decide, by rw [h]; decide⟩



lemma digit_isDigit (c : Char) (h : c ∈ digitChars) : c.isDigit = true := by
  fin_cases h <;> decide

lemma digit_pyLower (c : Char) (h : c ∈ digitChars) : pyLower c = c := by
  fin_cases h <;> decide

lemma digit_not_space (c : Char) (h : c ∈ digitChars) : isPySpace c = false := by
  fin_cases h <;> decide

lemma digit_ne_c (c : Char) (h : c ∈ digitChars) : c ≠ 'c' := by
  fin_cases h <;> decide

lemma matchLit_append (lit rest : List Char) : matchLit lit (lit ++ rest) = some rest := by
  induction lit with
  | nil => simp [matchLit]
  | cons c cs ih => simp [matchLit, ih]

lemma map_pyLower_digits (ds : List Char) (h : ∀ c ∈ ds, c ∈ digitChars) :
    ds.map pyLower = ds := by
  induction ds with
  | nil => rfl
  | cons c cs ih =>
    rw [List.map_cons, digit_pyLower c (h c (List.mem_cons_self c cs)),
      ih (fun x hx => h x (List.mem_cons_of_mem c hx))]

lemma spanDigits_append (ds rest : List Char) (hds : ∀ c ∈ ds, c.isDigit = true)
    (hrest : ∀ c, rest.head? = some c → c.isDigit = false) :
    spanDigits (ds ++ rest) = (ds, rest) := by
  induction ds with
  | nil =>
    cases rest with
    | nil => rfl
    | cons c cs =>
      have := hrest c rfl
      simp [spanDigits, this]
  | cons c cs ih =>
    have hc := hds c (List.mem_cons_self c cs)
    have ihh := ih (fun x hx => hds x (List.mem_cons_of_mem c hx))
    simp [spanDigits, hc, ihh]

lemma numAfter_decimal (seps : List Char) (d e sep : Char) (ds fs : List Char)
    (hd : d ∈ digitChars) (hds : ∀ c ∈ ds, c ∈ digitChars)
    (he : e ∈ digitChars) (hfs : ∀ c ∈ fs, c ∈ digitChars)
    (hsepd : sep.isDigit = false) (hsep : sep ∈ seps) :
    numAfter seps ((d :: ds) ++ sep :: (e :: fs)) = some (decVal (d :: ds) (e :: fs)) := by
  have h1 : spanDigits ((d :: ds) ++ sep :: (e :: fs)) = (d :: ds, sep :: (e :: fs)) := by
    refine spanDigits_append _ _ ?_ ?_
    · intro c hc
      rcases List.mem_cons.1 hc with rfl | hc2
      · exact digit_isDigit c hd
      · exact digit_isDigit c (hds c hc2)
    · intro c hc
      injection hc with hc
      rw [← hc]; exact hsepd
  have h2 : spanDigits ((e :: fs) ++ ([] : List Char)) = (e :: fs, []) := by
    refine spanDigits_append _ _ ?_ ?_
    · intro c hc
      rcases List.mem_cons.1 hc with rfl | hc2
      · exact digit_isDigit c he
      · exact digit_isDigit c (hfs c hc2)
    · intro c hc; cases hc
  rw [List.append_nil] at h2
  unfold numAfter
  rw [h1]
  dsimp only
  rw [if_pos hsep, h2]
  rfl

lemma skipWs_no_ws (r : List Char) (h : ∀ c, r.head? = some c → isPySpace c = false) :
    skipWs r = r := by
  cases r with
  | nil => rfl
  | cons c cs => have := h c rfl; simp [skipWs, this]

lemma pyStrip_eq_self (l : List Char)
    (hh : ∀ c, l.head? = some c → isPySpace c = false)
    (hl : ∀ c, l.getLast? = some c → isPySpace c = false) :
    pyStrip l = l := by
  unfold pyStrip
  have h1 : l.dropWhile isPySpace = l := by
    cases l with
    | nil => rfl
    | cons c cs => have := hh c rfl; simp [List.dropWhile_cons, this]
  rw [h1]
  have h2 : l.reverse.dropWhile isPySpace = l.reverse := by
    cases hr : l.reverse with
    | nil => rfl
    | cons c cs =>
      have hgl : l.getLast? = some c := by
        rw [← List.head?_reverse, hr]; rfl
      have := hl c hgl
      simp [List.dropWhile_cons, this]
  rw [h2, List.reverse_reverse]

lemma searchMarkerNum_hit_head (lits : List (List Char)) (c : Char) (cs rest : List Char) (q : ℚ)
    (hhead : (lits.filterMap (fun lit => matchLit lit (c :: cs))).head? = some rest)
    (h : numAfter ['.', ',', '-'] (skipWs rest) = some q) :
    searchMarkerNum lits (c :: cs) = some q := by
  conv_lhs => unfold searchMarkerNum
  rw [hhead]
  dsimp only
  rw [h]

lemma searchMarkerNum_step (lits : List (List Char)) (c : Char) (cs : List Char)
    (hfm : lits.filterMap (fun lit => matchLit lit (c :: cs)) = []) :
    searchMarkerNum lits (c :: cs) = searchMarkerNum lits cs := by
  conv_lhs => unfold searchMarkerNum
  rw [hfm]
  rfl

lemma searchMarkerNum_none_ne_c (lits : List (List Char))
    (hlits : ∀ lit ∈ lits, ∃ t, lit = 'c' :: t) :
    ∀ l : List Char, (∀ c ∈ l, c ≠ 'c') → searchMarkerNum lits l = none := by
  intro l
  induction l with
  | nil => intro _; rfl
  | cons c cs ih =>
    intro h
    have hc : c ≠ 'c' := h c (List.mem_cons_self c cs)
    have hfm : lits.filterMap (fun lit => matchLit lit (c :: cs)) = [] := by
      rw [List.filterMap_eq_nil_iff]
      intro lit hlit
      obtain ⟨t, rfl⟩ := hlits lit hlit
      show matchLit ('c' :: t) (c :: cs) = none
      unfold matchLit
      rw [if_neg (fun he => hc he.symm)]
    rw [searchMarkerNum_step lits c cs hfm]
    exact ih (fun x hx => h x (List.mem_cons_of_mem c hx))

lemma searchMarkerNum_cap_hit (tail : List Char) (q : ℚ)
    (h : numAfter ['.', ',', '-'] (skipWs tail) = some q) :
    searchMarkerNum capLits ('c' :: 'a' :: 'p' :: 'í' :: 't' :: 'u' :: 'l' :: 'o' :: tail) = some q := by
  have e2 := matchLit_append ['c','a','p','í','t','u','l','o'] tail
  simp only [List.cons_append, List.nil_append] at e2
  have e1 : matchLit ['c','a','p','i','t','u','l','o']
      ('c' :: 'a' :: 'p' :: 'í' :: 't' :: 'u' :: 'l' :: 'o' :: tail) = none := rfl
  refine searchMarkerNum_hit_head capLits 'c' _ tail q ?_ h
  rw [show capLits = [['c','a','p','i','t','u','l','o'], ['c','a','p','í','t','u','l','o']] from rfl]
  rw [List.filterMap_cons, List.filterMap_cons]
  rw [e1, e2]
  rfl

lemma searchMarkerNum_chap_hit (tail : List Char) (q : ℚ)
    (h : numAfter ['.', ',', '-'] (skipWs tail) = some q) :
    searchMarkerNum chapLits ('c' :: 'h' :: 'a' :: 'p' :: 't' :: 'e' :: 'r' :: tail) = some q := by
  have e2 := matchLit_append ['c','h','a','p','t','e','r'] tail
  simp only [List.cons_append, List.nil_append] at e2
  refine searchMarkerNum_hit_head chapLits 'c' _ tail q ?_ h
  rw [show chapLits = [['c','h','a','p','t','e','r']] from rfl]
  rw [List.filterMap_cons]
  rw [e2]
  rfl

lemma digit_sep_props (sep : Char) (hsep : sep = ',' ∨ sep = '-') :
    pyLower sep = sep ∧ sep.isDigit = false ∧ sep ∈ ['.', ',', '-']
      ∧ isPySpace sep = false ∧ sep ≠ 'c' := by
  rcases hsep with rfl | rfl <;> exact ⟨rfl, rfl, by decide, rfl, by decide⟩

lemma num_tail_eval (d e sep : Char) (ds fs : List Char)
    (hd : d ∈ digitChars) (hds : ∀ c ∈ ds, c ∈ digitChars)
    (he : e ∈ digitChars) (hfs : ∀ c ∈ fs, c ∈ digitChars)
    (hsep : sep = ',' ∨ sep = '-') :
    numAfter ['.', ',', '-'] (skipWs (' ' :: ((d :: ds) ++ sep :: (e :: fs))))
      = some (decVal (d :: ds) (e :: fs)) := by
  obtain ⟨hl, hnd, hmem, hns, hnc⟩ := digit_sep_props sep hsep
  have hskip1 : skipWs (' ' :: ((d :: ds) ++ sep :: (e :: fs)))
      = skipWs ((d :: ds) ++ sep :: (e :: fs)) := by
    simp [skipWs, isPySpace]
  have hskip2 : skipWs ((d :: ds) ++ sep :: (e :: fs)) = (d :: ds) ++ sep :: (e :: fs) := by
    refine skipWs_no_ws _ ?_
    intro c hc
    simp only [List.cons_append, List.head?_cons, Option.some.injEq] at hc
    rw [← hc]
    exact digit_not_space d hd
  rw [hskip1, hskip2]
  exact numAfter_decimal _ d e sep ds fs hd hds he hfs hnd hmem

lemma map_lower_num (d e sep : Char) (ds fs : List Char)
    (hd : d ∈ digitChars) (hds : ∀ c ∈ ds, c ∈ digitChars)
    (he : e ∈ digitChars) (hfs : ∀ c ∈ fs, c ∈ digitChars)
    (hsep : sep = ',' ∨ sep = '-') :
    ((d :: ds) ++ sep :: (e :: fs)).map pyLower = (d :: ds) ++ sep :: (e :: fs) := by
  obtain ⟨hl, _, _, _, _⟩ := digit_sep_props sep hsep
  simp only [List.map_append, List.map_cons]
  rw [digit_pyLower d hd, digit_pyLower e he, hl,
    map_pyLower_digits ds hds, map_pyLower_digits fs hfs]

lemma mem_of_getLast?_eq (l : List Char) (c : Char) (h : l.getLast? = some c) : c ∈ l := by
  cases l with
  | nil => cases h
  | cons a t =>
    rw [List.getLast?_eq_getLast _ (by simp)] at h
    injection h with h
    rw [← h]
    exact List.getLast_mem _


lemma num_getLast_nonspace (d e sep : Char) (ds fs : List Char)
    (he : e ∈ digitChars) (hfs : ∀ c ∈ fs, c ∈ digitChars)
    (front : List Char) :
    ∀ c : Char, ((front ++ (d :: ds) ++ [sep]) ++ (e :: fs)).getLast? = some c →
      isPySpace c = false := by
  intro c hc
  have hne : (e :: fs) ≠ [] := by simp
  have hfs2 : (e :: fs).getLast? = some ((e :: fs).getLast hne) :=
    List.getLast?_eq_getLast _ hne
  rw [List.getLast?_append, hfs2] at hc
  have hcb : c = (e :: fs).getLast hne := by
    have := congrArg (fun o => o) hc
    simp [Option.or] at hc
    exact hc.symm
  have hmem := mem_of_getLast?_eq _ _ hfs2
  rcases List.mem_cons.1 hmem with hh | hh
  · rw [hcb, hh]
    exact digit_not_space e he
  · rw [hcb]
    exact digit_not_space _ (hfs _ hh)

lemma normalize_cap_general (d e sep : Char) (ds fs : List Char)
    (hd : d ∈ digitChars) (hds : ∀ c ∈ ds, c ∈ digitChars)
    (he : e ∈ digitChars) (hfs : ∀ c ∈ fs, c ∈ digitChars)
    (hsep : sep = ',' ∨ sep = '-') :
    normalize_chapter
        (String.mk ('C' :: 'a' :: 'p' :: 'í' :: 't' :: 'u' :: 'l' :: 'o' :: ' ' ::((d :: ds) ++ sep :: (e :: fs))))
      = some (decVal (d :: ds) (e :: fs)) := by
  have hne : String.mk ('C' :: 'a' :: 'p' :: 'í' :: 't' :: 'u' :: 'l' :: 'o' :: ' ' ::((d :: ds) ++ sep :: (e :: fs))) ≠ "" := by
    intro h
    have h2 := congrArg String.data h
    exact List.noConfusion h2
  unfold normalize_chapter
  rw [if_neg hne]
  have hdata : (String.mk ('C' :: 'a' :: 'p' :: 'í' :: 't' :: 'u' :: 'l' :: 'o' :: ' ' ::((d :: ds) ++ sep :: (e :: fs)))).data
      = 'C' :: 'a' :: 'p' :: 'í' :: 't' :: 'u' :: 'l' :: 'o' :: ' ' ::((d :: ds) ++ sep :: (e :: fs)) := rfl
  rw [hdata]
  have hmap : ('C' :: 'a' :: 'p' :: 'í' :: 't' :: 'u' :: 'l' :: 'o' :: ' ' ::((d :: ds) ++ sep :: (e :: fs))).map pyLower
      = 'c' :: 'a' :: 'p' :: 'í' :: 't' :: 'u' :: 'l' :: 'o' :: ' ' ::((d :: ds) ++ sep :: (e :: fs)) := by
    simp only [List.map_cons]
    rw [map_lower_num d e sep ds fs hd hds he hfs hsep]
    rfl
  rw [hmap]
  have hstrip : pyStrip ('c' :: 'a' :: 'p' :: 'í' :: 't' :: 'u' :: 'l' :: 'o' :: ' ' ::((d :: ds) ++ sep :: (e :: fs)))
      = 'c' :: 'a' :: 'p' :: 'í' :: 't' :: 'u' :: 'l' :: 'o' :: ' ' ::((d :: ds) ++ sep :: (e :: fs)) := by
    refine pyStrip_eq_self _ ?_ ?_
    · intro c hc
      injection hc with hc
      rw [← hc]
      rfl
    · have hshape : ('c' :: 'a' :: 'p' :: 'í' :: 't' :: 'u' :: 'l' :: 'o' :: ' ' ::((d :: ds) ++ sep :: (e :: fs)) : List Char)
          = (['c','a','p','í','t','u','l','o',' '] ++ (d :: ds) ++ [sep]) ++ (e :: fs) := by
        simp
      rw [hshape]
      exact num_getLast_nonspace d e sep ds fs he hfs _
  rw [hstrip]
  dsimp only
  have hhit : searchMarkerNum capLits
      ('c' :: 'a' :: 'p' :: 'í' :: 't' :: 'u' :: 'l' :: 'o' :: ' ' ::((d :: ds) ++ sep :: (e :: fs)))
      = some (decVal (d :: ds) (e :: fs)) :=
    searchMarkerNum_cap_hit _ _ (num_tail_eval d e sep ds fs hd hds he hfs hsep)
  rw [hhit]

lemma num_all_ne_c (d e sep : Char) (ds fs : List Char)
    (hd : d ∈ digitChars) (hds : ∀ c ∈ ds, c ∈ digitChars)
    (he : e ∈ digitChars) (hfs : ∀ c ∈ fs, c ∈ digitChars)
    (hsep : sep = ',' ∨ sep = '-') :
    ∀ c ∈ (d :: ds) ++ sep :: (e :: fs), c ≠ 'c' := by
  intro c hc
  rcases List.mem_append.1 hc with hc1 | hc2
  · rcases List.mem_cons.1 hc1 with rfl | hh
    · exact digit_ne_c c hd
    · exact digit_ne_c c (hds c hh)
  · rcases List.mem_cons.1 hc2 with rfl | hh
    · obtain ⟨_, _, _, _, hnc⟩ := digit_sep_props c hsep
      exact hnc
    · rcases List.mem_cons.1 hh with rfl | hh2
      · exact digit_ne_c c he
      · exact digit_ne_c c (hfs c hh2)

lemma normalize_chap_general (d e sep : Char) (ds fs : List Char)
    (hd : d ∈ digitChars) (hds : ∀ c ∈ ds, c ∈ digitChars)
    (he : e ∈ digitChars) (hfs : ∀ c ∈ fs, c ∈ digitChars)
    (hsep : sep = ',' ∨ sep = '-') :
    normalize_chapter
        (String.mk ('C' :: 'h' :: 'a' :: 'p' :: 't' :: 'e' :: 'r' :: ' ' ::((d :: ds) ++ sep :: (e :: fs))))
      = some (decVal (d :: ds) (e :: fs)) := by
  have hne : String.mk ('C' :: 'h' :: 'a' :: 'p' :: 't' :: 'e' :: 'r' :: ' ' ::((d :: ds) ++ sep :: (e :: fs))) ≠ "" := by
    intro h
    have h2 := congrArg String.data h
    exact List.noConfusion h2
  unfold normalize_chapter
  rw [if_neg hne]
  have hdata : (String.mk ('C' :: 'h' :: 'a' :: 'p' :: 't' :: 'e' :: 'r' :: ' ' ::((d :: ds) ++ sep :: (e :: fs)))).data
      = 'C' :: 'h' :: 'a' :: 'p' :: 't' :: 'e' :: 'r' :: ' ' ::((d :: ds) ++ sep :: (e :: fs)) := rfl
  rw [hdata]
  have hmap : ('C' :: 'h' :: 'a' :: 'p' :: 't' :: 'e' :: 'r' :: ' ' ::((d :: ds) ++ sep :: (e :: fs))).map pyLower
      = 'c' :: 'h' :: 'a' :: 'p' :: 't' :: 'e' :: 'r' :: ' ' ::((d :: ds) ++ sep :: (e :: fs)) := by
    simp only [List.map_cons]
    rw [map_lower_num d e sep ds fs hd hds he hfs hsep]
    rfl
  rw [hmap]
  have hstrip : pyStrip ('c' :: 'h' :: 'a' :: 'p' :: 't' :: 'e' :: 'r' :: ' ' ::((d :: ds) ++ sep :: (e :: fs)))
      = 'c' :: 'h' :: 'a' :: 'p' :: 't' :: 'e' :: 'r' :: ' ' ::((d :: ds) ++ sep :: (e :: fs)) := by
    refine pyStrip_eq_self _ ?_ ?_
    · intro c hc
      injection hc with hc
      rw [← hc]
      rfl
    · have hshape : ('c' :: 'h' :: 'a' :: 'p' :: 't' :: 'e' :: 'r' :: ' ' ::((d :: ds) ++ sep :: (e :: fs)) : List Char)
          = (['c','h','a','p','t','e','r',' '] ++ (d :: ds) ++ [sep]) ++ (e :: fs) := by
        simp
      rw [hshape]
      exact num_getLast_nonspace d e sep ds fs he hfs _
  rw [hstrip]
  dsimp only
  have hnone1 : searchMarkerNum capLits
      ('c' :: 'h' :: 'a' :: 'p' :: 't' :: 'e' :: 'r' :: ' ' ::((d :: ds) ++ sep :: (e :: fs)))
      = searchMarkerNum capLits ((d :: ds) ++ sep :: (e :: fs)) := rfl
  have hnone2 : searchMarkerNum capLits ((d :: ds) ++ sep :: (e :: fs)) = none :=
    searchMarkerNum_none_ne_c capLits
      (by
        intro lit hlit
        rw [show capLits = [['c','a','p','i','t','u','l','o'], ['c','a','p','í','t','u','l','o']] from rfl] at hlit
        rcases List.mem_cons.1 hlit with rfl | h2
        · exact ⟨_, rfl⟩
        · rcases List.mem_cons.1 h2 with rfl | h3
          · exact ⟨_, rfl⟩
          · cases h3) _
      (num_all_ne_c d e sep ds fs hd hds he hfs hsep)
  rw [hnone1, hnone2]
  dsimp only
  have hhit : searchMarkerNum chapLits
      ('c' :: 'h' :: 'a' :: 'p' :: 't' :: 'e' :: 'r' :: ' ' ::((d :: ds) ++ sep :: (e :: fs)))
      = some (decVal (d :: ds) (e :: fs)) :=
    searchMarkerNum_chap_hit _ _ (num_tail_eval d e sep ds fs hd hds he hfs hsep)
  rw [hhit]

lemma numAfter_int (seps : List Char) (d : Char) (ds : List Char)
    (hd : d ∈ digitChars) (hds : ∀ c ∈ ds, c ∈ digitChars) :
    numAfter seps (d :: ds) = some ((natOfDigits (d :: ds) : ℕ) : ℚ) := by
  have h1 : spanDigits ((d :: ds) ++ ([] : List Char)) = (d :: ds, []) := by
    refine spanDigits_append _ _ ?_ ?_
    · intro c hc
      rcases List.mem_cons.1 hc with rfl | hc2
      · exact digit_isDigit c hd
      · exact digit_isDigit c (hds c hc2)
    · intro c hc; cases hc
  rw [List.append_nil] at h1
  unfold numAfter
  rw [h1]

lemma num_tail_eval_int (d : Char) (ds : List Char)
    (hd : d ∈ digitChars) (hds : ∀ c ∈ ds, c ∈ digitChars) :
    numAfter ['.', ',', '-'] (skipWs (' ' :: (d :: ds)))
      = some ((natOfDigits (d :: ds) : ℕ) : ℚ) := by
  have hskip1 : skipWs (' ' :: (d :: ds)) = skipWs (d :: ds) := by
    simp [skipWs, isPySpace]
  have hskip2 : skipWs (d :: ds) = d :: ds := by
    refine skipWs_no_ws _ ?_
    intro c hc
    injection hc with hc
    rw [← hc]
    exact digit_not_space d hd
  rw [hskip1, hskip2]
  exact numAfter_int _ d ds hd hds

lemma map_lower_digits_cons (d : Char) (ds : List Char)
    (hd : d ∈ digitChars) (hds : ∀ c ∈ ds, c ∈ digitChars) :
    (d :: ds).map pyLower = d :: ds := by
  rw [List.map_cons, digit_pyLower d hd, map_pyLower_digits ds hds]

lemma num_getLast_nonspace_int (d : Char) (ds : List Char)
    (hd : d ∈ digitChars) (hds : ∀ c ∈ ds, c ∈ digitChars)
    (front : List Char) :
    ∀ c : Char, (front ++ (d :: ds)).getLast? = some c → isPySpace c = false := by
  intro c hc
  have hne : (d :: ds) ≠ [] := by simp
  have hl : (d :: ds).getLast? = some ((d :: ds).getLast hne) :=
    List.getLast?_eq_getLast _ hne
  rw [List.getLast?_append, hl] at hc
  simp [Option.or] at hc
  have hmem := mem_of_getLast?_eq _ _ hl
  rcases List.mem_cons.1 hmem with hh | hh
  · rw [← hc, hh]
    exact digit_not_space d hd
  · rw [← hc]
    exact digit_not_space _ (hds _ hh)

lemma normalize_cap_int (d : Char) (ds : List Char)
    (hd : d ∈ digitChars) (hds : ∀ c ∈ ds, c ∈ digitChars) :
    normalize_chapter (String.mk ('C' :: 'a' :: 'p' :: 'í' :: 't' :: 'u' :: 'l' :: 'o' :: ' ' ::(d :: ds)))
      = some ((natOfDigits (d :: ds) : ℕ) : ℚ) := by
  have hne : String.mk ('C' :: 'a' :: 'p' :: 'í' :: 't' :: 'u' :: 'l' :: 'o' :: ' ' ::(d :: ds)) ≠ "" := by
    intro h
    exact List.noConfusion (congrArg String.data h)
  unfold normalize_chapter
  rw [if_neg hne]
  have hdata : (String.mk ('C' :: 'a' :: 'p' :: 'í' :: 't' :: 'u' :: 'l' :: 'o' :: ' ' ::(d :: ds))).data
      = 'C' :: 'a' :: 'p' :: 'í' :: 't' :: 'u' :: 'l' :: 'o' :: ' ' ::(d :: ds) := rfl
  rw [hdata]
  have hmap : ('C' :: 'a' :: 'p' :: 'í' :: 't' :: 'u' :: 'l' :: 'o' :: ' ' ::(d :: ds)).map pyLower
      = 'c' :: 'a' :: 'p' :: 'í' :: 't' :: 'u' :: 'l' :: 'o' :: ' ' ::(d :: ds) := by
    simp only [List.map_cons]
    rw [digit_pyLower d hd, map_pyLower_digits ds hds]
    rfl
  rw [hmap]
  have hstrip : pyStrip ('c' :: 'a' :: 'p' :: 'í' :: 't' :: 'u' :: 'l' :: 'o' :: ' ' ::(d :: ds))
      = 'c' :: 'a' :: 'p' :: 'í' :: 't' :: 'u' :: 'l' :: 'o' :: ' ' ::(d :: ds) := by
    refine pyStrip_eq_self _ ?_ ?_
    · intro c hc
      injection hc with hc
      rw [← hc]
      rfl
    · have hshape : ('c' :: 'a' :: 'p' :: 'í' :: 't' :: 'u' :: 'l' :: 'o' :: ' ' ::(d :: ds) : List Char)
          = ['c','a','p','í','t','u','l','o',' '] ++ (d :: ds) := by
        simp
      rw [hshape]
      exact num_getLast_nonspace_int d ds hd hds _
  rw [hstrip]
  dsimp only
  have hhit : searchMarkerNum capLits ('c' :: 'a' :: 'p' :: 'í' :: 't' :: 'u' :: 'l' :: 'o' :: ' ' ::(d :: ds))
      = some ((natOfDigits (d :: ds) : ℕ) : ℚ) :=
    searchMarkerNum_cap_hit _ _ (num_tail_eval_int d ds hd hds)
  rw [hhit]

lemma normalize_chap_int (d : Char) (ds : List Char)
    (hd : d ∈ digitChars) (hds : ∀ c ∈ ds, c ∈ digitChars) :
    normalize_chapter (String.mk ('C' :: 'h' :: 'a' :: 'p' :: 't' :: 'e' :: 'r' :: ' ' ::(d :: ds)))
      = some ((natOfDigits (d :: ds) : ℕ) : ℚ) := by
  have hne : String.mk ('C' :: 'h' :: 'a' :: 'p' :: 't' :: 'e' :: 'r' :: ' ' ::(d :: ds)) ≠ "" := by
    intro h
    exact List.noConfusion (congrArg String.data h)
  unfold normalize_chapter
  rw [if_neg hne]
  have hdata : (String.mk ('C' :: 'h' :: 'a' :: 'p' :: 't' :: 'e' :: 'r' :: ' ' ::(d :: ds))).data
      = 'C' :: 'h' :: 'a' :: 'p' :: 't' :: 'e' :: 'r' :: ' ' ::(d :: ds) := rfl
  rw [hdata]
  have hmap : ('C' :: 'h' :: 'a' :: 'p' :: 't' :: 'e' :: 'r' :: ' ' ::(d :: ds)).map pyLower
      = 'c' :: 'h' :: 'a' :: 'p' :: 't' :: 'e' :: 'r' :: ' ' ::(d :: ds) := by
    simp only [List.map_cons]
    rw [digit_pyLower d hd, map_pyLower_digits ds hds]
    rfl
  rw [hmap]
  have hstrip : pyStrip ('c' :: 'h' :: 'a' :: 'p' :: 't' :: 'e' :: 'r' :: ' ' ::(d :: ds))
      = 'c' :: 'h' :: 'a' :: 'p' :: 't' :: 'e' :: 'r' :: ' ' ::(d :: ds) := by
    refine pyStrip_eq_self _ ?_ ?_
    · intro c hc
      injection hc with hc
      rw [← hc]
      rfl
    · have hshape : ('c' :: 'h' :: 'a' :: 'p' :: 't' :: 'e' :: 'r' :: ' ' ::(d :: ds) : List Char)
          = ['c','h','a','p','t','e','r',' '] ++ (d :: ds) := by
        simp
      rw [hshape]
      exact num_getLast_nonspace_int d ds hd hds _
  rw [hstrip]
  dsimp only
  have hnone1 : searchMarkerNum capLits ('c' :: 'h' :: 'a' :: 'p' :: 't' :: 'e' :: 'r' :: ' ' ::(d :: ds))
      = searchMarkerNum capLits (d :: ds) := rfl
  have hnone2 : searchMarkerNum capLits (d :: ds) = none := by
    refine searchMarkerNum_none_ne_c capLits
      (by
        intro lit hlit
        rw [show capLits = [['c','a','p','i','t','u','l','o'], ['c','a','p','í','t','u','l','o']] from rfl] at hlit
        rcases List.mem_cons.1 hlit with rfl | h2
        · exact ⟨_, rfl⟩
        · rcases List.mem_cons.1 h2 with rfl | h3
          · exact ⟨_, rfl⟩
          · cases h3) _ ?_
    intro c hc
    rcases List.mem_cons.1 hc with rfl | hh
    · exact digit_ne_c c hd
    · exact digit_ne_c c (hds c hh)
  rw [hnone1, hnone2]
  dsimp only
  have hhit : searchMarkerNum chapLits ('c' :: 'h' :: 'a' :: 'p' :: 't' :: 'e' :: 'r' :: ' ' ::(d :: ds))
      = some ((natOfDigits (d :: ds) : ℕ) : ℚ) :=
    searchMarkerNum_chap_hit _ _ (num_tail_eval_int d ds hd hds)
  rw [hhit]

/-- C6 amended: a contextual marker (`Capítulo`/`Chapter`) immediately
followed by a number extracts exactly that number, for every digit string:
with `,` or `-` between two digit groups mapped to a decimal point, and a
bare digit group mapped to its integer value ("Capítulo 49-1" → 49.1,
"Chapter 166" → 166.0).  `_` is not a recognized separator, so "166_5"
extracts 166.0 via the bare-number fallback. -/
theorem marker_extraction_exact :
    (∀ (d e sep : Char) (ds fs : List Char),
        d ∈ digitChars → (∀ c ∈ ds, c ∈ digitChars) →
        e ∈ digitChars → (∀ c ∈ fs, c ∈ digitChars) →
        (sep = ',' ∨ sep = '-') →
        normalize_chapter (String.mk
            ('C' :: 'a' :: 'p' :: 'í' :: 't' :: 'u' :: 'l' :: 'o' :: ' ' ::((d :: ds) ++ sep :: (e :: fs))))
          = some (decVal (d :: ds) (e :: fs))
        ∧ normalize_chapter (String.mk
            ('C' :: 'h' :: 'a' :: 'p' :: 't' :: 'e' :: 'r' :: ' ' ::((d :: ds) ++ sep :: (e :: fs))))
          = some (decVal (d :: ds) (e :: fs)))
    ∧ (∀ (d : Char) (ds : List Char),
        d ∈ digitChars → (∀ c ∈ ds, c ∈ digitChars) →
        normalize_chapter (String.mk ('C' :: 'a' :: 'p' :: 'í' :: 't' :: 'u' :: 'l' :: 'o' :: ' ' ::(d :: ds)))
          = some ((natOfDigits (d :: ds) : ℕ) : ℚ)
        ∧ normalize_chapter (String.mk ('C' :: 'h' :: 'a' :: 'p' :: 't' :: 'e' :: 'r' :: ' ' ::(d :: ds)))
          = some ((natOfDigits (d :: ds) : ℕ) : ℚ))
    ∧ normalize_chapter "Capítulo 49-1" = some (491 / 10)
    ∧ normalize_chapter "Chapter 166" = some 166
    ∧ normalize_chapter "166_5" = some 166 := by
  refine ⟨?_, ?_, ?_, by decide, by decide⟩
  · intro d e sep ds fs hd hds he hfs hsep
    exact ⟨normalize_cap_general d e sep ds fs hd hds he hfs hsep,
           normalize_chap_general d e sep ds fs hd hds he hfs hsep⟩
  · intro d ds hd hds
    exact ⟨normalize_cap_int d ds hd hds, normalize_chap_int d ds hd hds⟩
  · have h : (491 / 10 : ℚ) = Rat.divInt 491 10 := by
      rw [Rat.divInt_eq_div]; norm_num
    rw [h]; decide

/-- Concrete instantiation of `marker_extraction_exact` on the marked
fragment "Capítulo 49-1": the extracted candidate is exactly 49.1. -/
theorem marker_extraction_exact_witness :
    normalize_chapter (String.mk
        ('C' :: 'a' :: 'p' :: 'í' :: 't' :: 'u' :: 'l' :: 'o' :: ' ' ::(('4' :: ['9']) ++ '-' :: ('1' :: []))))
      = some (decVal ('4' :: ['9']) ('1' :: [])) :=
  (marker_extraction_exact.1 '4' '1' '-' ['9'] [] (by decide) (by decide) (by decide)
    (by decide) (Or.inr rfl)).1

/- ### Theorems for C7 -/

/-- C7 counterexample: an accepted status with an empty body — failing any
"non-trivial length / HTML marker" sanity check — is returned as success,
not classified as a failure. -/
theorem fetch_no_body_check :
    fetch_html false false (fun _ => .resp 200 "") 3 = .ok (200, "")
    ∧ ("" : String).length = 0 :=
  ⟨rfl, rfl⟩

lemma fetchLoop_ok_status (cloudAvail : Bool) (gets : ℕ → GetR) :
    ∀ (t i : ℕ) (uc : Bool) (last : Option ℕ) (c : ℕ) (b : String),
      fetchLoop cloudAvail gets t i uc last = .ok (c, b) →
      (c = 200 ∨ c = 201) ∧ ∃ j, gets j = .resp c b := by
  intro t
  induction t with
  | zero => intro i uc last c b h; exact absurd h (by simp [fetchLoop])
  | succ t ih =>
    intro i uc last c b h
    unfold fetchLoop at h
    cases hg : gets i with
    | exn => rw [hg] at h; dsimp only at h; exact ih _ _ _ _ _ h
    | resp c0 b0 =>
      rw [hg] at h
      dsimp only at h
      by_cases hacc : c0 = 200 ∨ c0 = 201
      · rw [if_pos hacc] at h
        obtain ⟨rfl, rfl⟩ : c0 = c ∧ b0 = b := by
          injection h with h2; injection h2 with h3 h4; exact ⟨h3, h4⟩
        exact ⟨hacc, i, hg⟩
      · rw [if_neg hacc] at h
        split at h
        · cases hg2 : gets (i + 1) with
          | exn => rw [hg2] at h; dsimp only at h; exact ih _ _ _ _ _ h
          | resp c2 b2 =>
            rw [hg2] at h
            dsimp only at h
            by_cases hacc2 : c2 = 200 ∨ c2 = 201
            · rw [if_pos hacc2] at h
              obtain ⟨rfl, rfl⟩ : c2 = c ∧ b2 = b := by
                injection h with h2; injection h2 with h3 h4; exact ⟨h3, h4⟩
              exact ⟨hacc2, i + 1, hg2⟩
            · rw [if_neg hacc2] at h; exact ih _ _ _ _ _ h
        · exact ih _ _ _ _ _ h

/-- C7 amended: `fetch_html` succeeds exactly on a response whose HTTP
status is in the accepted set {200, 201}; the body is passed through
without any sanity check (the returned body is whatever that response
carried, even empty), and non-accepted outcomes end in a raised error. -/
theorem fetch_success_is_accepted_status (cloudAvail uc : Bool)
    (gets : ℕ → GetR) (mt : ℕ) (c : ℕ) (b : String)
    (h : fetch_html cloudAvail uc gets mt = .ok (c, b)) :
    (c = 200 ∨ c = 201) ∧ ∃ j, gets j = .resp c b :=
  fetchLoop_ok_status cloudAvail gets mt 0 uc none c b h

/-- Concrete instantiation of `fetch_success_is_accepted_status`: a stream
answering 200 with body "x" yields a success whose status is accepted and
whose body comes from that response. -/
theorem fetch_success_is_accepted_status_witness :
    ((200 = 200 ∨ 200 = 201) ∧ ∃ j, (fun _ : ℕ => GetR.resp 200 "x") j = .resp 200 "x") :=
  fetch_success_is_accepted_status false false (fun _ => .resp 200 "x") 3 200 "x" rfl

/- ### Theorems for C8 -/

lemma le_foldl_max_init (t : List ℚ) : ∀ a : ℚ, a ≤ t.foldl max a := by
  induction t with
  | nil => intro a; exact le_refl a
  | cons b t ih => intro a; exact le_trans (le_max_left a b) (ih (max a b))

lemma le_foldl_max (t : List ℚ) : ∀ a x : ℚ, x ∈ t → x ≤ t.foldl max a := by
  induction t with
  | nil => intro a x hx; cases hx
  | cons b t ih =>
    intro a x hx
    rcases List.mem_cons.1 hx with rfl | hx2
    · exact le_trans (le_max_right a x) (le_foldl_max_init t (max a x))
    · exact ih (max a b) x hx2

lemma maxSpec_max? (l : List ℚ) : MaxSpec l l.max? := by
  cases l with
  | nil => exact ⟨by simp, by simp [List.max?]⟩
  | cons a t =>
    constructor
    · simp [List.max?]
    · intro q hq
      constructor
      · exact List.max?_mem (fun _ _ => max_choice _ _) hq
      · intro x hx
        have hq2 : q = t.foldl max a := by
          simpa [List.max?] using hq.symm
        subst hq2
        rcases List.mem_cons.1 hx with rfl | hx2
        · exact le_foldl_max_init t x
        · exact le_foldl_max t a x hx2

/-- C8: each site parser returns the maximum of the candidates surviving
numeric extraction in the stage it used, moves to its broader stage only
when the narrower stage yielded zero candidates, and fails exactly when
the staged candidate list is empty.  (The Madara parser has a single
stage; Zonatmo and AnimeBBG have a narrow stage and a broad fallback.) -/
theorem parsers_take_staged_max (links h4s zA titles aA : List String) :
    MaxSpec (madaraCands links) (parse_madara_latest links)
    ∧ MaxSpec (zonStaged h4s zA) (parse_zonatmo_latest h4s zA)
    ∧ MaxSpec (abStaged titles aA) (parse_animebbg_latest titles aA)
    ∧ ((zonCands1 h4s).isEmpty = false → zonStaged h4s zA = zonCands1 h4s)
    ∧ ((zonCands1 h4s).isEmpty = true → zonStaged h4s zA = zonCands2 zA)
    ∧ ((abCands1 titles).isEmpty = false → abStaged titles aA = abCands1 titles)
    ∧ ((abCands1 titles).isEmpty = true → abStaged titles aA = abCands2 aA) := by
  refine ⟨maxSpec_max? _, maxSpec_max? _, maxSpec_max? _, ?_, ?_, ?_, ?_⟩
  · intro h; simp [zonStaged, h]
  · intro h; simp [zonStaged, h]
  · intro h; simp [abStaged, h]
  · intro h; simp [abStaged, h]

/-- Concrete instantiation of `parsers_take_staged_max`: on a Madara page
listing chapters 3 and 10 the parser returns 10, which is a candidate and
bounds all candidates; a Zonatmo page with an empty narrow stage uses the
anchor fallback and returns its maximum 7; an AnimeBBG page with a
non-empty narrow stage ignores its fallback anchors. -/
theorem parsers_take_staged_max_witness :
    ((10 : ℚ) ∈ madaraCands ["Capítulo 3", "Capítulo 10"]
      ∧ ∀ x ∈ madaraCands ["Capítulo 3", "Capítulo 10"], x ≤ 10)
    ∧ zonStaged [] ["Capítulo 7"] = zonCands2 ["Capítulo 7"]
    ∧ ((7 : ℚ) ∈ zonStaged [] ["Capítulo 7"]
      ∧ ∀ x ∈ zonStaged [] ["Capítulo 7"], x ≤ 7)
    ∧ abStaged ["Chapter 2"] ["Chapter 9"] = abCands1 ["Chapter 2"] := by
  refine ⟨?_, ?_, ?_, ?_⟩
  · exact (parsers_take_staged_max ["Capítulo 3", "Capítulo 10"] [] [] [] []).1.2 10 (by decide)
  · exact (parsers_take_staged_max [] [] ["Capítulo 7"] [] []).2.2.2.2.1 (by decide)
  · exact (parsers_take_staged_max [] [] ["Capítulo 7"] [] []).2.1.2 7 (by decide)
  · exact (parsers_take_staged_max [] [] [] ["Chapter 2"] ["Chapter 9"]).2.2.2.2.2.1 (by decide)

/- ### Theorems for C9 -/

/-- C9 counterexample: `_chunks` never breaks inside a line, so a single
line longer than the limit is returned as one oversized chunk — the
produced chunk is NOT within the size limit. -/
theorem chunk_exceeds_limit_on_long_line :
    _chunks "aaaaaaaaaaaa" 5 = ["aaaaaaaaaaaa"]
    ∧ 5 < ("aaaaaaaaaaaa" : String).length := by
  exact ⟨by decide, by decide⟩

lemma pyJoin_nl_length (cur : List String) (hne : cur ≠ []) :
    (pyJoin "\n" cur).length + 1 = sumLens cur := by
  induction cur with
  | nil => cases hne rfl
  | cons a t ih =>
    cases t with
    | nil => simp [pyJoin, sumLens]
    | cons b t2 =>
      have h2 := ih (by simp)
      have e1 : pyJoin "\n" (a :: b :: t2) = a ++ "\n" ++ pyJoin "\n" (b :: t2) := rfl
      have e2 : sumLens (a :: b :: t2) = (a.length + 1) + sumLens (b :: t2) := by
        simp [sumLens]
      rw [e1, e2, String.length_append, String.length_append]
      have e3 : ("\n" : String).length = 1 := rfl
      rw [e3]
      omega

lemma sumLens_append_one (cur : List String) (l : String) :
    sumLens (cur ++ [l]) = sumLens cur + (l.length + 1) := by
  simp [sumLens]

lemma chunksGo_len (n : ℕ) :
    ∀ (lines out cur : List String) (total : ℕ),
      (∀ l ∈ lines, l.length + 1 ≤ n) →
      (∀ c ∈ out, c.length ≤ n) →
      total = sumLens cur → total ≤ n →
      ∀ c ∈ chunksGo n lines out total cur, c.length ≤ n := by
  intro lines
  induction lines with
  | nil =>
    intro out cur total hl hout htot hle c hc
    unfold chunksGo at hc
    split at hc
    · exact hout c hc
    · rcases List.mem_append.1 hc with hco | hcj
      · exact hout c hco
      · rename_i hcur
        have hne : cur ≠ [] := by
          intro hnil; rw [hnil] at hcur; exact hcur rfl
        have hj := pyJoin_nl_length cur hne
        have hcj2 : c = pyJoin "\n" cur := by simpa using hcj
        subst hcj2
        omega
  | cons line rest ih =>
    intro out cur total hl hout htot hle c hc
    unfold chunksGo at hc
    have hline : line.length + 1 ≤ n := hl line (List.mem_cons_self line rest)
    have hlrest : ∀ l ∈ rest, l.length + 1 ≤ n :=
      fun l hml => hl l (List.mem_cons_of_mem line hml)
    split at hc
    · rename_i hcond
      have hne : cur ≠ [] := by
        intro hnil
        rw [hnil] at hcond
        simp [List.isEmpty] at hcond
      refine ih (out ++ [pyJoin "\n" cur]) [line] (line.length + 1)
        hlrest ?_ (by simp [sumLens]) hline c hc
      intro c2 hc2
      rcases List.mem_append.1 hc2 with hco | hcj
      · exact hout c2 hco
      · have hj := pyJoin_nl_length cur hne
        have hcj2 : c2 = pyJoin "\n" cur := by simpa using hcj
        subst hcj2
        omega
    · rename_i hcond
      have htot2 : total + (line.length + 1) = sumLens (cur ++ [line]) := by
        rw [sumLens_append_one, htot]
      have hle2 : total + (line.length + 1) ≤ n := by
        by_cases hcur : cur.isEmpty
        · have : cur = [] := by
            cases cur with
            | nil => rfl
            | cons x xs => simp [List.isEmpty] at hcur
          rw [this] at htot
          simp [sumLens] at htot
          omega
        · have : ¬ n < total + (line.length + 1) := by
            intro hlt
            exact hcond ⟨hlt, by simp [hcur]⟩
          omega
      exact ih out (cur ++ [line]) (total + (line.length + 1))
        hlrest hout htot2 hle2 c hc

/-- C9 amended: a chunk produced by `_chunks s n` can exceed `n` only via a
single overlong line; whenever every line of the body satisfies
`len(line) + 1 ≤ n`, every produced chunk has length at most `n`. -/
theorem chunks_fit_when_lines_fit (s : String) (n : ℕ)
    (h : ∀ l ∈ splitlines s, l.length + 1 ≤ n) :
    ∀ c ∈ _chunks s n, c.length ≤ n := by
  intro c hc
  unfold _chunks at hc
  split at hc
  · rename_i hlen
    have : c = s := by simpa using hc
    subst this
    exact hlen
  · exact chunksGo_len n (splitlines s) [] [] 0 h (by simp)
      (by simp [sumLens]) (by simp) c hc

/-- Concrete instantiation of `chunks_fit_when_lines_fit` at the body
"ab\ncd" with limit 4: both lines fit, and both produced chunks are within
the limit. -/
theorem chunks_fit_when_lines_fit_witness :
    (∀ l ∈ splitlines "ab\ncd", l.length + 1 ≤ 4)
    ∧ ∀ c ∈ _chunks "ab\ncd" 4, c.length ≤ 4 :=
  ⟨by decide, fun c hc => chunks_fit_when_lines_fit "ab\ncd" 4 (by decide) c hc⟩

/- ### Theorems for C10 -/

/-- C10: whenever `plausible_chapter` accepts a value, the `float`
conversion cannot raise (acceptance required a successful conversion
already), so the cleaning loop's `no-numérico` branch — clearing
`last_chapter` after `plausible_chapter` accepted it — is unreachable for
every input value. -/
theorem no_numerico_branch_unreachable (x : PyVal) :
    (plausible_chapter x = true → pyFloat x ≠ none)
    ∧ clean_entry x ≠ .setNoneNoNum := by
  constructor
  · intro hp hn
    unfold plausible_chapter at hp
    rw [hn] at hp
    exact Bool.false_ne_true hp
  · intro hc
    unfold clean_entry at hc
    by_cases h1 : x = .vnone ∨ x = .vstr ""
    · rw [if_pos h1] at hc
      exact CleanAction.noConfusion hc
    · rw [if_neg h1] at hc
      by_cases h2 : plausible_chapter x = true
      · rw [if_pos h2] at hc
        cases hf : pyFloat x with
        | none =>
          unfold plausible_chapter at h2
          rw [hf] at h2
          exact Bool.false_ne_true h2
        | some f =>
          rw [hf] at hc
          cases f with
          | fin v =>
            dsimp only at hc
            split at hc <;> split at hc <;> exact CleanAction.noConfusion hc
          | nan => dsimp only at hc; exact CleanAction.noConfusion hc
          | inf => dsimp only at hc; exact CleanAction.noConfusion hc
          | ninf => dsimp only at hc; exact CleanAction.noConfusion hc
      · rw [if_neg h2] at hc
        exact CleanAction.noConfusion hc

/-- Concrete instantiation of `no_numerico_branch_unreachable` at the
stored value 5: accepted by `plausible_chapter`, convertible, and not sent
to the `no-numérico` branch. -/
theorem no_numerico_branch_unreachable_witness :
    pyFloat (.vint 5) ≠ none ∧ clean_entry (.vint 5) ≠ .setNoneNoNum :=
  ⟨(no_numerico_branch_unreachable (.vint 5)).1 (by decide),
   (no_numerico_branch_unreachable (.vint 5)).2⟩
